import Mathlib

/-
Verification of the memory subsystem of the AmadeusPrototype repository
(`memory/episodic.py`, `memory/vector_index.py`, `memory/short_term.py`,
`memory/manager.py`).

Python floats are modelled as rationals (`ℚ`) in the structural store,
and as reals (`ℝ`) for the transcendental relevance / decay formulas.
The stable Python `list.sort` is modelled by `List.insertionSort` (any two
stable sorts for a total preorder agree).  The FAISS vector index content
is abstracted to the sequence of texts whose embeddings were added, since
the embedding of a fixed model is a function of the text.
-/

namespace Amadeus

/-- Generic helper: replace the element at position `i` by `f` applied to it
(out-of-range indices leave the list unchanged). Models in-place
`l[i] = f(l[i])` on a Python list. -/
def modifyIdx {α : Type} (f : α → α) : ℕ → List α → List α
  | _, [] => []
  | 0, x :: xs => f x :: xs
  | n + 1, x :: xs => x :: modifyIdx f n xs

/-! ### memory/vector_index.py -/

/-- State of `VectorIndex`: the two parallel dicts `self.indexes` and
`self.texts`, each mapping a memory type to the texts it currently holds
(the FAISS index object is determined by the sequence of texts added to it).
Modelled as association lists with unique keys, like Python dicts. -/
structure VectorIndexState where
  indexes : List (String × List String)
  texts : List (String × List String)
deriving Repr, DecidableEq, Inhabited

/-- Dict lookup on an association list. -/
def alookup (k : String) : List (String × List String) → Option (List String)
  | [] => none
  | (k2, v) :: rest => if k2 = k then some v else alookup k rest

/-- Dict assignment `d[k] = v` on an association list. -/
def aset (k : String) (v : List String) : List (String × List String) → List (String × List String)
  | [] => [(k, v)]
  | (k2, v2) :: rest => if k2 = k then (k, v) :: rest else (k2, v2) :: aset k v rest

/-- Dict deletion `del d[k]` on an association list (no-op when absent). -/
def aerase (k : String) : List (String × List String) → List (String × List String)
  | [] => []
  | (k2, v2) :: rest => if k2 = k then rest else (k2, v2) :: aerase k rest

namespace VectorIndex

/-- `VectorIndex.create_index`: on an empty text list it only logs a warning
and returns, touching nothing; otherwise it stores the new index and the new
text list for `memory_type`. -/
def create_index (st : VectorIndexState) (memory_type : String) (texts : List String) :
    VectorIndexState :=
  if texts = [] then st
  else { indexes := aset memory_type texts st.indexes,
         texts := aset memory_type texts st.texts }

/-- `VectorIndex.update_index`: empty additions are a no-op; when no index
exists yet it delegates to `create_index`; otherwise it appends the new
vectors to the index and extends the text list (or installs the new texts
when the text entry is missing). -/
def update_index (st : VectorIndexState) (memory_type : String) (new_texts : List String) :
    VectorIndexState :=
  if new_texts = [] then st
  else if alookup memory_type st.indexes = none then create_index st memory_type new_texts
  else
    let oldIdx := (alookup memory_type st.indexes).getD []
    let st1 : VectorIndexState :=
      { st with indexes := aset memory_type (oldIdx ++ new_texts) st.indexes }
    match alookup memory_type st1.texts with
    | some old => { st1 with texts := aset memory_type (old ++ new_texts) st1.texts }
    | none => { st1 with texts := aset memory_type new_texts st1.texts }

/-- `VectorIndex.rebuild_index`: deletes the stored index for `memory_type`
and then calls `create_index` with the full text list. -/
def rebuild_index (st : VectorIndexState) (memory_type : String) (texts : List String) :
    VectorIndexState :=
  create_index { st with indexes := aerase memory_type st.indexes } memory_type texts

end VectorIndex

/-! ### memory/episodic.py -/

/-- One entry of `EpisodicMemory.memories` (a Python dict with fixed keys). -/
structure MemoryEntry where
  text : String
  timestamp : String
  unix_time : ℚ
  importance : ℚ
  category : Option String
  emotion : Option String
  access_count : ℕ
deriving Repr, DecidableEq, Inhabited

/-- The `self.settings` dict of `EpisodicMemory`. -/
structure Settings where
  importance_decay_rate : ℚ
  max_memories : ℕ
  recency_weight : ℚ
  importance_weight : ℚ
deriving Repr, DecidableEq, Inhabited

/-- The settings installed by `EpisodicMemory.__init__`. -/
def defaultSettings : Settings :=
  { importance_decay_rate := 0.95
    max_memories := 100
    recency_weight := 0.3
    importance_weight := 0.7 }

/-- Joint state of an `EpisodicMemory` object and its `VectorIndex`. -/
structure EpisodicState where
  memories : List MemoryEntry
  settings : Settings
  vector_index : VectorIndexState
deriving Repr, DecidableEq, Inhabited

/-- A fresh `EpisodicMemory` attached to a fresh `VectorIndex`. -/
def emptyEpisodic : EpisodicState :=
  { memories := [], settings := defaultSettings, vector_index := { indexes := [], texts := [] } }

namespace EpisodicMemory

/-- The retention score computed by `_prune_memories` for one entry:
`0.7*importance + 0.2*(1/(1+age/30)) + 0.1*min(1, access_count/(1+age))`
with `age = (current_time - unix_time)/86400` in days. -/
def retentionScore (current_time : ℚ) (m : MemoryEntry) : ℚ :=
  let age := (current_time - m.unix_time) / 86400
  let access_frequency := (m.access_count : ℚ) / (1 + age)
  0.7 * m.importance + 0.2 * (1 / (1 + age / 30)) + 0.1 * min 1 access_frequency

/-- The `(index, score)` list built by `_prune_memories`, in list order. -/
def pruneScored (current_time : ℚ) (ms : List MemoryEntry) : List (ℕ × ℚ) :=
  ms.enum.map fun p => (p.1, retentionScore current_time p.2)

/-- The indices removed by `_prune_memories`: the first
`count - max_memories` entries of the score list after a stable ascending
sort by score (Python `sort(key=lambda x: x[1])`). -/
def pruneRemovedIdxs (current_time : ℚ) (max_memories : ℕ) (ms : List MemoryEntry) : List ℕ :=
  (((pruneScored current_time ms).insertionSort fun a b => a.2 ≤ b.2).take
      (ms.length - max_memories)).map Prod.fst

/-- `EpisodicMemory._prune_memories`: when over the limit, drops the
lowest-scoring `count - max_memories` entries (keeping the rest in their
original relative order) and rebuilds the episodic index from the
surviving texts. -/
def prune_memories (current_time : ℚ) (st : EpisodicState) : EpisodicState :=
  if st.memories.length ≤ st.settings.max_memories then st
  else
    let idxs := pruneRemovedIdxs current_time st.settings.max_memories st.memories
    let new_memories := (st.memories.enum.filter fun p => decide (p.1 ∉ idxs)).map Prod.snd
    { st with
      memories := new_memories
      vector_index :=
        VectorIndex.rebuild_index st.vector_index "episodic" (new_memories.map (·.text)) }

/-- The `memory_entry` dict built by `add_memory`: fresh entry with
`access_count = 0` and the importance argument stored as given
(`float(importance)`, no clamping). -/
def mkEntry (text : String) (importance : ℚ) (category emotion : Option String)
    (timestamp : String) (now : ℚ) : MemoryEntry :=
  { text := text, timestamp := timestamp, unix_time := now, importance := importance,
    category := category, emotion := emotion, access_count := 0 }

/-- `EpisodicMemory.add_memory`: appends the fresh entry, updates the vector
index with the new text, prunes, and returns `len(self.memories) - 1` as
computed after pruning. -/
def add_memory (st : EpisodicState) (text : String) (importance : ℚ)
    (category emotion : Option String) (timestamp : String) (now : ℚ) :
    EpisodicState × ℕ :=
  let entry := mkEntry text importance category emotion timestamp now
  let st1 : EpisodicState :=
    { st with
      memories := st.memories ++ [entry]
      vector_index := VectorIndex.update_index st.vector_index "episodic" [text] }
  let st2 := prune_memories now st1
  (st2, st2.memories.length - 1)

/-- `EpisodicMemory.update_importance`: succeeds exactly when
`0 <= memory_index < len(self.memories)`, overwriting only the
`importance` field of that entry. -/
def update_importance (st : EpisodicState) (memory_index : ℕ) (new_importance : ℚ) :
    EpisodicState × Bool :=
  if memory_index < st.memories.length then
    ({ st with
        memories := modifyIdx (fun m => { m with importance := new_importance })
          memory_index st.memories }, true)
  else (st, false)

/-- The blended relevance computed inside `retrieve_relevant` for one search
hit: weights `(0.6, importance_weight, recency_weight)` normalized to sum
to 1, applied to the semantic relevance, the stored importance and the
recency `1/(1+age_days/30)`. -/
def combinedRelevance (settings : Settings) (current_time relevance : ℚ) (m : MemoryEntry) : ℚ :=
  let age_in_days := (current_time - m.unix_time) / 86400
  let recency := 1 / (1 + age_in_days / 30)
  let semantic_weight : ℚ := 0.6
  let sum_weights := semantic_weight + settings.importance_weight + settings.recency_weight
  semantic_weight / sum_weights * relevance +
    settings.importance_weight / sum_weights * m.importance +
    settings.recency_weight / sum_weights * recency

/-- One hit returned by `VectorIndex.search` (only the fields
`retrieve_relevant` reads). -/
structure SearchRes where
  index : ℕ
  relevance : ℚ
deriving Repr, DecidableEq, Inhabited

/-- One element of the list returned by `retrieve_relevant`. -/
structure RetrievedMemory where
  text : String
  relevance : ℚ
  timestamp : String
  importance : ℚ
  category : Option String
  emotion : Option String
  age_days : ℚ
deriving Repr, DecidableEq, Inhabited

/-- The record built for a surviving search hit. -/
def mkRetrieved (current_time combined : ℚ) (m : MemoryEntry) : RetrievedMemory :=
  { text := m.text, relevance := combined, timestamp := m.timestamp,
    importance := m.importance, category := m.category, emotion := m.emotion,
    age_days := (current_time - m.unix_time) / 86400 }

/-- One iteration of the loop body of `retrieve_relevant`: skip invalid
indices; otherwise increment `access_count` unconditionally and append the
result record only when the blended relevance reaches `min_relevance`. -/
def retrieveStep (settings : Settings) (current_time min_relevance : ℚ)
    (acc : List MemoryEntry × List RetrievedMemory) (r : SearchRes) :
    List MemoryEntry × List RetrievedMemory :=
  match acc with
  | (mems, out) =>
    if r.index < mems.length then
      let m := mems.getD r.index default
      let combined := combinedRelevance settings current_time r.relevance m
      let mems2 := modifyIdx (fun mm => { mm with access_count := mm.access_count + 1 })
        r.index mems
      if min_relevance ≤ combined then
        (mems2, out ++ [mkRetrieved current_time combined m])
      else (mems2, out)
    else (mems, out)

/-- Specification of what one search hit contributes to the final result
list of `retrieve_relevant`, reading the pre-call memory list (legitimate
because the loop only ever mutates `access_count`, which none of the read
fields depend on). -/
def hitRecord (settings : Settings) (current_time min_relevance : ℚ)
    (mems0 : List MemoryEntry) (r : SearchRes) : Option RetrievedMemory :=
  if r.index < mems0.length then
    let m := mems0.getD r.index default
    let c := combinedRelevance settings current_time r.relevance m
    if min_relevance ≤ c then some (mkRetrieved current_time c m) else none
  else none

/-- `EpisodicMemory.retrieve_relevant`, given the hit list produced by the
vector search (the search itself is over embeddings and is taken as an
input): processes hits in order, then sorts the kept records by relevance
descending (stable, Python `sort(reverse=True)`) and truncates to `top_k`. -/
def retrieve_relevant (st : EpisodicState) (results : List SearchRes)
    (top_k : ℕ) (min_relevance current_time : ℚ) :
    EpisodicState × List RetrievedMemory :=
  if st.memories = [] then (st, [])
  else
    let acc := results.foldl (retrieveStep st.settings current_time min_relevance)
      (st.memories, [])
    let sorted := acc.2.insertionSort fun a b => b.relevance ≤ a.relevance
    ({ st with memories := acc.1 }, sorted.take top_k)

/-- `EpisodicMemory.clear`: empties the list, rebuilds the episodic index
with `[]`, and returns the number of removed entries. -/
def clear (st : EpisodicState) : EpisodicState × ℕ :=
  ({ st with
      memories := []
      vector_index := VectorIndex.rebuild_index st.vector_index "episodic" [] },
   st.memories.length)

/-- The dict produced by `EpisodicMemory.to_dict`. -/
structure EpisodicDict where
  memories : List MemoryEntry
  settings : Settings
deriving Repr, DecidableEq, Inhabited

/-- `EpisodicMemory.to_dict`. -/
def to_dict (st : EpisodicState) : EpisodicDict :=
  { memories := st.memories, settings := st.settings }

/-- `EpisodicMemory.from_dict`: installs the stored memories and settings,
and rebuilds the episodic index from the stored texts when non-empty. -/
def from_dict (st : EpisodicState) (d : EpisodicDict) : EpisodicState :=
  let st1 : EpisodicState := { st with memories := d.memories, settings := d.settings }
  if d.memories = [] then st1
  else
    { st1 with
      vector_index :=
        VectorIndex.rebuild_index st1.vector_index "episodic" (d.memories.map (·.text)) }

end EpisodicMemory

/-! ### memory/short_term.py -/

/-- State of `ShortTermMemory`. -/
structure ShortTermState where
  max_messages : ℕ
  messages : List String
deriving Repr, DecidableEq, Inhabited

/-- The dict produced by `ShortTermMemory.to_dict`. -/
structure ShortTermDict where
  max_messages : ℕ
  messages : List String
deriving Repr, DecidableEq, Inhabited

namespace ShortTermMemory

/-- `ShortTermMemory.to_dict`. -/
def to_dict (s : ShortTermState) : ShortTermDict :=
  { max_messages := s.max_messages, messages := s.messages }

/-- `ShortTermMemory.from_dict`. -/
def from_dict (d : ShortTermDict) : ShortTermState :=
  { max_messages := d.max_messages, messages := d.messages }

end ShortTermMemory

/-! ### Sequences of episodic operations (for reachability statements) -/

/-- An external call on an `EpisodicMemory` object. -/
inductive MemOp where
  | addOp (text : String) (importance : ℚ) (category emotion : Option String)
      (timestamp : String) (now : ℚ)
  | updateOp (idx : ℕ) (importance : ℚ)
  | retrieveOp (results : List EpisodicMemory.SearchRes) (top_k : ℕ)
      (min_relevance now : ℚ)
  | clearOp

/-- Apply one call to the state. -/
def applyOp (st : EpisodicState) : MemOp → EpisodicState
  | .addOp t i c e ts now => (EpisodicMemory.add_memory st t i c e ts now).1
  | .updateOp idx i => (EpisodicMemory.update_importance st idx i).1
  | .retrieveOp rs k mr now => (EpisodicMemory.retrieve_relevant st rs k mr now).1
  | .clearOp => (EpisodicMemory.clear st).1

/-- Every importance argument supplied by the call lies in `[0, 1]`. -/
def opImportancesOK : MemOp → Prop
  | .addOp _ i _ _ _ _ => 0 ≤ i ∧ i ≤ 1
  | .updateOp _ i => 0 ≤ i ∧ i ≤ 1
  | _ => True

/-- Run a sequence of calls. -/
def runOps (st : EpisodicState) (ops : List MemOp) : EpisodicState :=
  ops.foldl applyOp st

/-! ### Real-valued formulas: decay and distance-to-relevance -/

/-- `EpisodicMemory.decay_memories` applied to one entry, over the reals:
`max(0.1, importance * decay_rate ** (age_in_days / 30))` where
`age_in_days = (current_time - unix_time) / 86400`. -/
noncomputable def decayImportance (decay_rate current_time unix_time importance : ℝ) : ℝ :=
  let age_in_days := (current_time - unix_time) / 86400
  let decay_factor := decay_rate ^ (age_in_days / 30)
  max 0.1 (importance * decay_factor)

/-- Real-valued view of an entry: only the fields `decay_memories` reads. -/
structure RMemoryEntry where
  unix_time : ℝ
  importance : ℝ

/-- `EpisodicMemory.decay_memories` over the whole list. -/
noncomputable def decay_memories (decay_rate current_time : ℝ) (ms : List RMemoryEntry) :
    List RMemoryEntry :=
  ms.map fun m =>
    { m with importance := decayImportance decay_rate current_time m.unix_time m.importance }

/-- `VectorIndex._calculate_relevance`: the three distance-to-relevance
maps, with fallback to `inverse` on an unrecognized method name. -/
noncomputable def calculate_relevance (method : String) (distance : ℝ) : ℝ :=
  if method = "inverse" then 1 / (1 + distance)
  else if method = "exponential" then Real.exp (-distance)
  else if method = "sigmoid" then 1 / (1 + Real.exp (5 * (distance - 1)))
  else 1 / (1 + distance)

/-! ### Concrete fixtures (used to instantiate theorems at explicit inputs) -/

/-- A stored entry with importance 0 (as produced by `add_memory("a", 0.0)`
at unix time 0). -/
def fixtureLow : MemoryEntry :=
  { text := "a", timestamp := "t", unix_time := 0, importance := 0,
    category := none, emotion := none, access_count := 0 }

/-- A stored entry with importance 1 (as produced by `add_memory("a", 1.0)`
at unix time 0). -/
def fixtureHigh : MemoryEntry :=
  { text := "a", timestamp := "t", unix_time := 0, importance := 1,
    category := none, emotion := none, access_count := 0 }

/-- An `EpisodicMemory` holding exactly `fixtureLow`. -/
def stLow : EpisodicState :=
  { memories := [fixtureLow], settings := defaultSettings,
    vector_index := { indexes := [("episodic", ["a"])], texts := [("episodic", ["a"])] } }

/-- An `EpisodicMemory` holding exactly `fixtureHigh`. -/
def stHigh : EpisodicState :=
  { memories := [fixtureHigh], settings := defaultSettings,
    vector_index := { indexes := [("episodic", ["a"])], texts := [("episodic", ["a"])] } }

/-- An `EpisodicMemory` holding exactly `fixtureHigh`, with
`max_memories = 1` so that the next `add_memory` triggers pruning. -/
def stPrune : EpisodicState :=
  { memories := [fixtureHigh],
    settings := { defaultSettings with max_memories := 1 },
    vector_index := { indexes := [("episodic", ["a"])], texts := [("episodic", ["a"])] } }

/-! ## Helper lemmas -/

lemma length_modifyIdx {α : Type} (f : α → α) :
    ∀ (n : ℕ) (l : List α), (modifyIdx f n l).length = l.length := by
  intro n l
  induction l generalizing n with
  | nil => cases n <;> rfl
  | cons x xs ih => cases n with
    | zero => rfl
    | succ k => simpa [modifyIdx] using ih k

lemma getD_modifyIdx_self {α : Type} (f : α → α) {n : ℕ} {l : List α}
    (h : n < l.length) (d : α) : (modifyIdx f n l).getD n d = f (l.getD n d) := by
  induction l generalizing n with
  | nil => simp at h
  | cons x xs ih =>
    cases n with
    | zero => rfl
    | succ k =>
      simp only [modifyIdx, List.getD_cons_succ]
      exact ih (by simpa using h)

lemma getD_modifyIdx_ne {α : Type} (f : α → α) :
    ∀ (n j : ℕ) (l : List α), j ≠ n → ∀ d : α,
      (modifyIdx f n l).getD j d = l.getD j d := by
  intro n j l
  induction l generalizing n j with
  | nil => intro _ d; cases n <;> rfl
  | cons x xs ih =>
    intro h d
    cases n with
    | zero =>
      cases j with
      | zero => exact absurd rfl h
      | succ i => rfl
    | succ k =>
      cases j with
      | zero => rfl
      | succ i =>
        simp only [modifyIdx, List.getD_cons_succ]
        exact ih k i (fun hh => h (by simpa using hh)) d

lemma mem_modifyIdx {α : Type} (f : α → α) {x : α} :
    ∀ (n : ℕ) (l : List α), x ∈ modifyIdx f n l → x ∈ l ∨ ∃ y ∈ l, x = f y := by
  intro n l
  induction l generalizing n with
  | nil => intro h; simp [modifyIdx] at h
  | cons a as ih =>
    intro h
    cases n with
    | zero =>
      simp only [modifyIdx, List.mem_cons] at h
      rcases h with h | h
      · exact Or.inr ⟨a, List.mem_cons_self a as, h⟩
      · exact Or.inl (List.mem_cons_of_mem a h)
    | succ k =>
      simp only [modifyIdx, List.mem_cons] at h
      rcases h with h | h
      · exact Or.inl (h ▸ List.mem_cons_self a as)
      · rcases ih k h with h2 | ⟨y, hy, hxy⟩
        · exact Or.inl (List.mem_cons_of_mem a h2)
        · exact Or.inr ⟨y, List.mem_cons_of_mem a hy, hxy⟩

lemma inverse_relevance_pos {d : ℝ} (hd : 0 ≤ d) : 0 < 1 / (1 + d) :=
  div_pos one_pos (by linarith)

lemma inverse_relevance_le_one {d : ℝ} (hd : 0 ≤ d) : 1 / (1 + d) ≤ 1 := by
  rw [div_le_one (by linarith)]; linarith

lemma inverse_relevance_anti {d d2 : ℝ} (hd : 0 ≤ d) (h12 : d ≤ d2) :
    1 / (1 + d2) ≤ 1 / (1 + d) :=
  one_div_le_one_div_of_le (by linarith) (by linarith)

lemma sigmoid_relevance_pos (x : ℝ) : 0 < 1 / (1 + Real.exp x) :=
  div_pos one_pos (by positivity)

lemma sigmoid_relevance_le_one (x : ℝ) : 1 / (1 + Real.exp x) ≤ 1 := by
  rw [div_le_one (by positivity)]
  have := Real.exp_pos x
  linarith

lemma sigmoid_relevance_anti {x y : ℝ} (hxy : x ≤ y) :
    1 / (1 + Real.exp y) ≤ 1 / (1 + Real.exp x) :=
  one_div_le_one_div_of_le (by positivity) (by simpa using Real.exp_le_exp.mpr hxy)

/-! ## C7 -/

/-- C7: for every distance `d ≥ 0`, each of the three relevance methods
(`inverse(d) = 1/(1+d)`, `exponential(d) = exp(-d)`,
`sigmoid(d) = 1/(1+exp(5*(d-1)))`) returns a value in `(0, 1]` and is
non-increasing in `d`; at exact points `sigmoid 1 = 0.5`, `inverse 0 = 1`
and `exponential 0 = 1`; and any unrecognized method name yields the same
result as `inverse` rather than an error. -/
theorem c7_relevance_bounds (method : String) (d d2 : ℝ) (hd : 0 ≤ d) (h12 : d ≤ d2) :
    (0 < calculate_relevance method d ∧ calculate_relevance method d ≤ 1) ∧
    calculate_relevance method d2 ≤ calculate_relevance method d ∧
    calculate_relevance "sigmoid" 1 = 0.5 ∧
    calculate_relevance "inverse" 0 = 1 ∧
    calculate_relevance "exponential" 0 = 1 ∧
    (method ≠ "inverse" → method ≠ "exponential" → method ≠ "sigmoid" →
      calculate_relevance method d = calculate_relevance "inverse" d) := by
  have hsig : calculate_relevance "sigmoid" 1 = 0.5 := by
    simp only [calculate_relevance, if_neg (by decide : ¬("sigmoid" : String) = "inverse"),
      if_neg (by decide : ¬("sigmoid" : String) = "exponential"), if_pos rfl]
    norm_num [Real.exp_zero]
  have hinv : calculate_relevance "inverse" 0 = 1 := by
    simp [calculate_relevance]
  have hexp : calculate_relevance "exponential" 0 = 1 := by
    simp only [calculate_relevance, if_neg (by decide : ¬("exponential" : String) = "inverse"),
      if_pos rfl]
    simp [Real.exp_zero]
  refine ⟨?_, ?_, hsig, hinv, hexp, ?_⟩
  · unfold calculate_relevance
    split_ifs
    · exact ⟨inverse_relevance_pos hd, inverse_relevance_le_one hd⟩
    · exact ⟨Real.exp_pos _, Real.exp_le_one_iff.mpr (by linarith)⟩
    · exact ⟨sigmoid_relevance_pos _, sigmoid_relevance_le_one _⟩
    · exact ⟨inverse_relevance_pos hd, inverse_relevance_le_one hd⟩
  · unfold calculate_relevance
    split_ifs
    · exact inverse_relevance_anti hd h12
    · exact Real.exp_le_exp.mpr (by linarith)
    · exact sigmoid_relevance_anti (by linarith)
    · exact inverse_relevance_anti hd h12
  · intro h1 h2 h3
    unfold calculate_relevance
    rw [if_neg h1, if_neg h2, if_neg h3, if_pos rfl]

/-- C7 witness: the theorem applied at the unrecognized method name
`"foo"` and the concrete distances `d = 0`, `d2 = 1`. -/
theorem c7_relevance_bounds_witness :
    (0:ℝ) ≤ 0 ∧ (0:ℝ) ≤ 1 ∧
    ((0 < calculate_relevance "foo" 0 ∧ calculate_relevance "foo" 0 ≤ 1) ∧
      calculate_relevance "foo" 1 ≤ calculate_relevance "foo" 0 ∧
      calculate_relevance "sigmoid" 1 = 0.5 ∧
      calculate_relevance "inverse" 0 = 1 ∧
      calculate_relevance "exponential" 0 = 1 ∧
      (("foo" : String) ≠ "inverse" → ("foo" : String) ≠ "exponential" →
        ("foo" : String) ≠ "sigmoid" →
        calculate_relevance "foo" 0 = calculate_relevance "inverse" 0)) :=
  ⟨le_refl 0, by norm_num, c7_relevance_bounds "foo" 0 1 (le_refl 0) (by norm_num)⟩

/-! ## C10 -/

/-- C10: restoring a snapshot reproduces, item for item, the same episodic
texts, importance values, categories and emotions, and the same short-term
buffer contents, whatever fresh state the loader starts from (only the
vector index internals are rebuilt). -/
theorem c10_snapshot_roundtrip (orig fresh : EpisodicState) (s : ShortTermState) :
    (EpisodicMemory.from_dict fresh (EpisodicMemory.to_dict orig)).memories = orig.memories ∧
    (EpisodicMemory.from_dict fresh (EpisodicMemory.to_dict orig)).settings = orig.settings ∧
    (EpisodicMemory.from_dict fresh (EpisodicMemory.to_dict orig)).memories.map (·.text) =
      orig.memories.map (·.text) ∧
    (EpisodicMemory.from_dict fresh (EpisodicMemory.to_dict orig)).memories.map (·.importance) =
      orig.memories.map (·.importance) ∧
    (EpisodicMemory.from_dict fresh (EpisodicMemory.to_dict orig)).memories.map (·.category) =
      orig.memories.map (·.category) ∧
    (EpisodicMemory.from_dict fresh (EpisodicMemory.to_dict orig)).memories.map (·.emotion) =
      orig.memories.map (·.emotion) ∧
    ShortTermMemory.from_dict (ShortTermMemory.to_dict s) = s := by
  have hm : (EpisodicMemory.from_dict fresh (EpisodicMemory.to_dict orig)).memories =
      orig.memories := by
    unfold EpisodicMemory.from_dict EpisodicMemory.to_dict
    split_ifs <;> rfl
  have hs : (EpisodicMemory.from_dict fresh (EpisodicMemory.to_dict orig)).settings =
      orig.settings := by
    unfold EpisodicMemory.from_dict EpisodicMemory.to_dict
    split_ifs <;> rfl
  exact ⟨hm, hs, by rw [hm], by rw [hm], by rw [hm], by rw [hm], rfl⟩

/-! ## C8 -/

/-- C8 (code bug): `rebuild_index` called with an empty text list on a state
that holds an index and a text list for `"episodic"` deletes the index
entry but leaves the stale text list in place — the parallel pair is
desynchronized rather than being replaced atomically or left untouched. -/
theorem c8_rebuild_empty_desync :
    VectorIndex.rebuild_index
        { indexes := [("episodic", ["a"])], texts := [("episodic", ["a"])] }
        "episodic" [] =
      { indexes := [], texts := [("episodic", ["a"])] } ∧
    alookup "episodic"
        (VectorIndex.rebuild_index
          { indexes := [("episodic", ["a"])], texts := [("episodic", ["a"])] }
          "episodic" []).indexes = none ∧
    alookup "episodic"
        (VectorIndex.rebuild_index
          { indexes := [("episodic", ["a"])], texts := [("episodic", ["a"])] }
          "episodic" []).texts = some ["a"] := by
  refine ⟨?_, ?_, ?_⟩ <;>
    simp [VectorIndex.rebuild_index, VectorIndex.create_index, aerase, alookup]

/-! ## C4 -/

/-- C4 counterexample: an item whose importance is below the `0.1` floor is
raised by `decay_memories`, even at zero elapsed time — so "decay never
raises importance" and "decay is a no-op at zero elapsed time" are both
false as stated: `max(0.1, 0.05 * 0.95 ** 0) = 0.1 > 0.05`. -/
theorem c4_decay_raises_low_importance :
    decayImportance 0.95 0 0 0.05 = 0.1 ∧ (0.05 : ℝ) < 0.1 := by
  constructor
  · simp only [decayImportance]
    have h0 : ((0 : ℝ) - 0) / 86400 / 30 = 0 := by norm_num
    rw [h0, Real.rpow_zero, mul_one]
    exact max_eq_left (by norm_num)
  · norm_num

/-- C4 (amended): `decay_memories` sets each importance to
`max(0.1, importance * decay_rate ** (age_days / 30))`; the result is always
at least `0.1`; for items whose importance is at least `0.1` (in particular
all importances in the documented range that survived a previous decay),
decay never raises importance and is a no-op at zero elapsed time; items
below `0.1` are raised to exactly the floor `0.1`. -/
theorem c4_decay_formula (decay_rate current_time : ℝ) (m : RMemoryEntry)
    (ms : List RMemoryEntry)
    (hr0 : 0 < decay_rate) (hr1 : decay_rate ≤ 1) (hage : m.unix_time ≤ current_time) :
    decayImportance decay_rate current_time m.unix_time m.importance =
      max 0.1 (m.importance * decay_rate ^ ((current_time - m.unix_time) / 86400 / 30)) ∧
    (0.1 : ℝ) ≤ decayImportance decay_rate current_time m.unix_time m.importance ∧
    ((0.1 : ℝ) ≤ m.importance →
      decayImportance decay_rate current_time m.unix_time m.importance ≤ m.importance) ∧
    (current_time = m.unix_time → (0.1 : ℝ) ≤ m.importance →
      decayImportance decay_rate current_time m.unix_time m.importance = m.importance) ∧
    (m.importance < 0.1 →
      decayImportance decay_rate current_time m.unix_time m.importance = 0.1) ∧
    (decay_memories decay_rate current_time ms).map (·.importance) =
      ms.map (fun mm => decayImportance decay_rate current_time mm.unix_time mm.importance) := by
  have hfac : decay_rate ^ ((current_time - m.unix_time) / 86400 / 30) ≤ 1 :=
    Real.rpow_le_one (le_of_lt hr0) hr1
      (div_nonneg (div_nonneg (by linarith) (by norm_num)) (by norm_num))
  have hfacpos : 0 < decay_rate ^ ((current_time - m.unix_time) / 86400 / 30) :=
    Real.rpow_pos_of_pos hr0 _
  refine ⟨rfl, le_max_left _ _, ?_, ?_, ?_, ?_⟩
  · intro himp
    simp only [decayImportance]
    apply max_le himp
    calc m.importance * decay_rate ^ ((current_time - m.unix_time) / 86400 / 30)
        ≤ m.importance * 1 := mul_le_mul_of_nonneg_left hfac (by linarith)
      _ = m.importance := mul_one _
  · intro hzero himp
    simp only [decayImportance]
    rw [hzero]
    have h0 : (m.unix_time - m.unix_time) / 86400 / 30 = 0 := by
      rw [sub_self]; norm_num
    rw [h0, Real.rpow_zero, mul_one]
    exact max_eq_right himp
  · intro himp
    simp only [decayImportance]
    apply max_eq_left
    have h1 : m.importance * decay_rate ^ ((current_time - m.unix_time) / 86400 / 30) ≤
        0.1 * decay_rate ^ ((current_time - m.unix_time) / 86400 / 30) :=
      mul_le_mul_of_nonneg_right (le_of_lt himp) (le_of_lt hfacpos)
    have h2 : (0.1 : ℝ) * decay_rate ^ ((current_time - m.unix_time) / 86400 / 30) ≤
        0.1 * 1 :=
      mul_le_mul_of_nonneg_left hfac (by norm_num)
    linarith
  · simp [decay_memories]

/-- C4 witness: the amended theorem applied at `decay_rate = 0.95`,
`current_time = unix_time = 0`, `importance = 0.5`. -/
theorem c4_decay_formula_witness :
    (0 : ℝ) < 0.95 ∧ (0.95 : ℝ) ≤ 1 ∧ (0 : ℝ) ≤ 0 ∧
    (decayImportance 0.95 0 0 0.5 =
        max 0.1 (0.5 * (0.95 : ℝ) ^ (((0 : ℝ) - 0) / 86400 / 30)) ∧
      (0.1 : ℝ) ≤ decayImportance 0.95 0 0 0.5 ∧
      ((0.1 : ℝ) ≤ 0.5 → decayImportance 0.95 0 0 0.5 ≤ 0.5) ∧
      ((0 : ℝ) = 0 → (0.1 : ℝ) ≤ 0.5 → decayImportance 0.95 0 0 0.5 = 0.5) ∧
      ((0.5 : ℝ) < 0.1 → decayImportance 0.95 0 0 0.5 = 0.1) ∧
      (decay_memories 0.95 0 []).map (·.importance) =
        ([] : List RMemoryEntry).map
          (fun mm => decayImportance 0.95 0 mm.unix_time mm.importance)) :=
  ⟨by norm_num, by norm_num, le_refl 0,
    c4_decay_formula 0.95 0 ⟨0, 0.5⟩ [] (by norm_num) (by norm_num) (le_refl 0)⟩

/-! ## C9 -/

/-- C9: `update_importance` returns false exactly when the index does not
refer to an existing item, leaving the store unchanged in that case; when
it returns true, only the importance field of the target item changes —
its other fields (including `access_count` and the timestamps) and every
other item, the settings and the vector index are all untouched. -/
theorem c9_update_importance_spec (st : EpisodicState) (idx : ℕ) (v : ℚ) :
    ((EpisodicMemory.update_importance st idx v).2 = true ↔ idx < st.memories.length) ∧
    ((EpisodicMemory.update_importance st idx v).2 = false →
      (EpisodicMemory.update_importance st idx v).1 = st) ∧
    (idx < st.memories.length →
      (EpisodicMemory.update_importance st idx v).1.settings = st.settings ∧
      (EpisodicMemory.update_importance st idx v).1.vector_index = st.vector_index ∧
      (EpisodicMemory.update_importance st idx v).1.memories.length =
        st.memories.length ∧
      (EpisodicMemory.update_importance st idx v).1.memories.getD idx default =
        { st.memories.getD idx default with importance := v } ∧
      ∀ j : ℕ, j ≠ idx →
        (EpisodicMemory.update_importance st idx v).1.memories.getD j default =
          st.memories.getD j default) := by
  unfold EpisodicMemory.update_importance
  split_ifs with h
  · refine ⟨by simp [h], by simp, fun _ => ⟨rfl, rfl, length_modifyIdx _ _ _, ?_, ?_⟩⟩
    · exact getD_modifyIdx_self _ h _
    · intro j hj
      exact getD_modifyIdx_ne _ idx j _ hj _
  · exact ⟨by simp [h], fun _ => rfl, fun hlt => absurd hlt h⟩

/-- C9 witness: the theorem applied to the one-element store `stHigh` at the
valid index 0 with new importance `1/4`. -/
theorem c9_update_importance_spec_witness :
    ((EpisodicMemory.update_importance stHigh 0 (1/4)).2 = true ↔
      0 < stHigh.memories.length) ∧
    ((EpisodicMemory.update_importance stHigh 0 (1/4)).2 = false →
      (EpisodicMemory.update_importance stHigh 0 (1/4)).1 = stHigh) ∧
    (0 < stHigh.memories.length →
      (EpisodicMemory.update_importance stHigh 0 (1/4)).1.settings = stHigh.settings ∧
      (EpisodicMemory.update_importance stHigh 0 (1/4)).1.vector_index =
        stHigh.vector_index ∧
      (EpisodicMemory.update_importance stHigh 0 (1/4)).1.memories.length =
        stHigh.memories.length ∧
      (EpisodicMemory.update_importance stHigh 0 (1/4)).1.memories.getD 0 default =
        { stHigh.memories.getD 0 default with importance := 1/4 } ∧
      ∀ j : ℕ, j ≠ 0 →
        (EpisodicMemory.update_importance stHigh 0 (1/4)).1.memories.getD j default =
          stHigh.memories.getD j default) :=
  c9_update_importance_spec stHigh 0 (1/4)

/-! ## Characterization of the retrieve loop -/

lemma combinedRelevance_bump (settings : Settings) (ct rel : ℚ) (m : MemoryEntry) :
    EpisodicMemory.combinedRelevance settings ct rel
        { m with access_count := m.access_count + 1 } =
      EpisodicMemory.combinedRelevance settings ct rel m := rfl

lemma mkRetrieved_bump (ct c : ℚ) (m : MemoryEntry) :
    EpisodicMemory.mkRetrieved ct c { m with access_count := m.access_count + 1 } =
      EpisodicMemory.mkRetrieved ct c m := rfl

lemma hitRecord_modifyIdx (settings : Settings) (ct mr : ℚ)
    (mems : List MemoryEntry) (i : ℕ) (r : EpisodicMemory.SearchRes) :
    EpisodicMemory.hitRecord settings ct mr
        (modifyIdx (fun mm => { mm with access_count := mm.access_count + 1 }) i mems) r =
      EpisodicMemory.hitRecord settings ct mr mems r := by
  simp only [EpisodicMemory.hitRecord]
  rw [length_modifyIdx]
  by_cases h : r.index < mems.length
  · rw [if_pos h, if_pos h]
    by_cases hi : r.index = i
    · subst hi
      rw [getD_modifyIdx_self _ h]
      simp only [combinedRelevance_bump, mkRetrieved_bump]
    · rw [getD_modifyIdx_ne _ i r.index _ hi]
  · rw [if_neg h, if_neg h]

lemma retrieveStep_valid (settings : Settings) (now mr : ℚ)
    (mems0 : List MemoryEntry) (out0 : List EpisodicMemory.RetrievedMemory)
    (r : EpisodicMemory.SearchRes) (hidx : r.index < mems0.length) :
    EpisodicMemory.retrieveStep settings now mr (mems0, out0) r =
      (modifyIdx (fun mm => { mm with access_count := mm.access_count + 1 })
        r.index mems0,
       if mr ≤ EpisodicMemory.combinedRelevance settings now r.relevance
            (mems0.getD r.index default)
       then out0 ++ [EpisodicMemory.mkRetrieved now
          (EpisodicMemory.combinedRelevance settings now r.relevance
            (mems0.getD r.index default))
          (mems0.getD r.index default)]
       else out0) := by
  simp only [EpisodicMemory.retrieveStep]
  rw [if_pos hidx]
  by_cases hrel : mr ≤ EpisodicMemory.combinedRelevance settings now r.relevance
      (mems0.getD r.index default)
  · rw [if_pos hrel, if_pos hrel]
  · rw [if_neg hrel, if_neg hrel]

lemma foldl_retrieveStep_spec (settings : Settings) (now mr : ℚ) :
    ∀ (rs : List EpisodicMemory.SearchRes) (mems0 : List MemoryEntry)
      (out0 : List EpisodicMemory.RetrievedMemory),
      (rs.foldl (EpisodicMemory.retrieveStep settings now mr) (mems0, out0)).1.length =
          mems0.length ∧
      (∀ i : ℕ, i < mems0.length → ∀ d : MemoryEntry,
        (rs.foldl (EpisodicMemory.retrieveStep settings now mr) (mems0, out0)).1.getD i d =
          { mems0.getD i d with
            access_count := (mems0.getD i d).access_count +
              rs.countP (fun r => r.index == i) }) ∧
      (rs.foldl (EpisodicMemory.retrieveStep settings now mr) (mems0, out0)).2 =
        out0 ++ rs.filterMap (EpisodicMemory.hitRecord settings now mr mems0) := by
  intro rs
  induction rs with
  | nil =>
    intro mems0 out0
    refine ⟨rfl, ?_, by simp⟩
    intro i hi d
    simp
  | cons r rs ih =>
    intro mems0 out0
    rw [List.foldl_cons]
    by_cases hidx : r.index < mems0.length
    · rw [retrieveStep_valid settings now mr mems0 out0 r hidx]
      have hlen1 : (modifyIdx (fun mm => { mm with access_count := mm.access_count + 1 })
          r.index mems0).length = mems0.length := length_modifyIdx _ _ _
      obtain ⟨ihlen, ihget, ihout⟩ :=
        ih (modifyIdx (fun mm => { mm with access_count := mm.access_count + 1 })
            r.index mems0)
          (if mr ≤ EpisodicMemory.combinedRelevance settings now r.relevance
              (mems0.getD r.index default)
           then out0 ++ [EpisodicMemory.mkRetrieved now
              (EpisodicMemory.combinedRelevance settings now r.relevance
                (mems0.getD r.index default))
              (mems0.getD r.index default)]
           else out0)
      refine ⟨by rw [ihlen, hlen1], ?_, ?_⟩
      · intro i hi d
        rw [ihget i (by omega) d]
        by_cases hir : r.index = i
        · subst hir
          have hg : (modifyIdx (fun mm => { mm with access_count := mm.access_count + 1 })
                r.index mems0).getD r.index d =
              { mems0.getD r.index d with
                access_count := (mems0.getD r.index d).access_count + 1 } :=
            getD_modifyIdx_self _ hidx d
          have hc : (r :: rs).countP (fun q => q.index == r.index) =
              rs.countP (fun q => q.index == r.index) + 1 := by
            rw [List.countP_cons]
            simp
          rw [hg, hc]
          simp only [MemoryEntry.mk.injEq, eq_self_iff_true, true_and, and_true]
          omega
        · rw [getD_modifyIdx_ne _ r.index i _ (fun hh => hir hh.symm)]
          have hc : (r :: rs).countP (fun q => q.index == i) =
              rs.countP (fun q => q.index == i) := by
            rw [List.countP_cons]
            have hb : (r.index == i) = false := by
              simp only [beq_eq_false_iff_ne]
              exact hir
            simp [hb]
          rw [hc]
      · rw [ihout]
        have hfun : EpisodicMemory.hitRecord settings now mr
              (modifyIdx (fun mm => { mm with access_count := mm.access_count + 1 })
                r.index mems0) =
            EpisodicMemory.hitRecord settings now mr mems0 :=
          funext (hitRecord_modifyIdx settings now mr mems0 r.index)
        rw [hfun, List.filterMap_cons]
        have hrec : EpisodicMemory.hitRecord settings now mr mems0 r =
            if mr ≤ EpisodicMemory.combinedRelevance settings now r.relevance
                (mems0.getD r.index default)
            then some (EpisodicMemory.mkRetrieved now
              (EpisodicMemory.combinedRelevance settings now r.relevance
                (mems0.getD r.index default))
              (mems0.getD r.index default))
            else none := by
          simp only [EpisodicMemory.hitRecord]
          rw [if_pos hidx]
        rw [hrec]
        split_ifs with hrel
        · simp
        · simp
    · have hstep : EpisodicMemory.retrieveStep settings now mr (mems0, out0) r =
          (mems0, out0) := by
        simp only [EpisodicMemory.retrieveStep]
        rw [if_neg hidx]
      rw [hstep]
      obtain ⟨ihlen, ihget, ihout⟩ := ih mems0 out0
      refine ⟨ihlen, ?_, ?_⟩
      · intro i hi d
        rw [ihget i hi d]
        have hc : (r :: rs).countP (fun q => q.index == i) =
            rs.countP (fun q => q.index == i) := by
          rw [List.countP_cons]
          have hb : (r.index == i) = false := by
            simp only [beq_eq_false_iff_ne]
            omega
          simp [hb]
        rw [hc]
      · rw [ihout, List.filterMap_cons]
        have hrec : EpisodicMemory.hitRecord settings now mr mems0 r = none := by
          simp only [EpisodicMemory.hitRecord]
          rw [if_neg hidx]
        rw [hrec]

/-! ## C1 -/

/-- C1 counterexample: a single search candidate whose blended relevance
`0.3/1.6 = 0.1875` falls below `min_relevance = 1/5` is dropped from the
returned list, yet its `access_count` is still incremented from 0 to 1 —
contradicting the claim that only items in the final returned list are
incremented. -/
theorem c1_filtered_candidate_incremented :
    (EpisodicMemory.retrieve_relevant stLow
        [{ index := 0, relevance := 0 }] 3 (1/5) 0).2 = [] ∧
    (EpisodicMemory.retrieve_relevant stLow
        [{ index := 0, relevance := 0 }] 3 (1/5) 0).1.memories.map (·.access_count) =
      [1] := by
  constructor <;>
    norm_num [EpisodicMemory.retrieve_relevant, EpisodicMemory.retrieveStep,
      EpisodicMemory.combinedRelevance, EpisodicMemory.mkRetrieved, modifyIdx,
      stLow, fixtureLow, defaultSettings, List.insertionSort]

/-- C1 (amended): `retrieve_relevant` increments `access_count` by exactly 1
for every search candidate with a valid index (once per occurrence among
the candidates), including candidates dropped by the `min_relevance` filter
or by truncation to `top_k`; items that never occur among the candidates
are unchanged, and no field other than `access_count` changes. -/
theorem c1_access_counts (st : EpisodicState) (results : List EpisodicMemory.SearchRes)
    (top_k : ℕ) (mr now : ℚ) (i : ℕ) (h : i < st.memories.length) :
    (EpisodicMemory.retrieve_relevant st results top_k mr now).1.memories.length =
        st.memories.length ∧
    (EpisodicMemory.retrieve_relevant st results top_k mr now).1.memories.getD i default =
      { st.memories.getD i default with
        access_count := (st.memories.getD i default).access_count +
          results.countP (fun r => r.index == i) } := by
  unfold EpisodicMemory.retrieve_relevant
  by_cases hemp : st.memories = []
  · exact absurd h (by simp [hemp])
  · rw [if_neg hemp]
    obtain ⟨hlen, hget, _⟩ := foldl_retrieveStep_spec st.settings now mr results st.memories []
    exact ⟨by simpa using hlen, by simpa using hget i h default⟩

/-- C1 witness: the amended theorem applied to the one-element store `stLow`
and the single candidate with index 0. -/
theorem c1_access_counts_witness :
    0 < stLow.memories.length ∧
    ((EpisodicMemory.retrieve_relevant stLow
          [{ index := 0, relevance := 0 }] 3 (1/5) 0).1.memories.length =
        stLow.memories.length ∧
      (EpisodicMemory.retrieve_relevant stLow
          [{ index := 0, relevance := 0 }] 3 (1/5) 0).1.memories.getD 0 default =
        { stLow.memories.getD 0 default with
          access_count := (stLow.memories.getD 0 default).access_count +
            List.countP (fun r => r.index == 0)
              [({ index := 0, relevance := 0 } : EpisodicMemory.SearchRes)] }) :=
  ⟨by simp [stLow, fixtureLow],
    c1_access_counts stLow [{ index := 0, relevance := 0 }] 3 (1/5) 0 0
      (by simp [stLow, fixtureLow])⟩

/-! ## C6 -/

lemma hitRecord_some {settings : Settings} {now mr : ℚ} {ms : List MemoryEntry}
    {r : EpisodicMemory.SearchRes} {x : EpisodicMemory.RetrievedMemory}
    (h : EpisodicMemory.hitRecord settings now mr ms r = some x) :
    r.index < ms.length ∧ mr ≤ x.relevance ∧
    x = EpisodicMemory.mkRetrieved now
      (EpisodicMemory.combinedRelevance settings now r.relevance (ms.getD r.index default))
      (ms.getD r.index default) := by
  simp only [EpisodicMemory.hitRecord] at h
  split_ifs at h with h1 h2
  obtain rfl : EpisodicMemory.mkRetrieved now
      (EpisodicMemory.combinedRelevance settings now r.relevance (ms.getD r.index default))
      (ms.getD r.index default) = x := Option.some.inj h
  exact ⟨h1, h2, rfl⟩

lemma retrieve_result_eq (st : EpisodicState)
    (results : List EpisodicMemory.SearchRes) (top_k : ℕ) (mr now : ℚ)
    (hemp : st.memories ≠ []) :
    (EpisodicMemory.retrieve_relevant st results top_k mr now).2 =
      ((results.filterMap
          (EpisodicMemory.hitRecord st.settings now mr st.memories)).insertionSort
        (fun a b => b.relevance ≤ a.relevance)).take top_k := by
  unfold EpisodicMemory.retrieve_relevant
  rw [if_neg hemp]
  obtain ⟨_, _, hout⟩ := foldl_retrieveStep_spec st.settings now mr results st.memories []
  simp only [hout, List.nil_append]

/-- C6: `retrieve_relevant` keeps exactly the candidates whose blended
relevance (weights `(0.6, 0.7, 0.3)` normalized to `(6/16, 7/16, 3/16)`,
recency `1/(1+age_days/30)`) reaches `min_relevance`, sorts the survivors
descending by blended relevance, and truncates to at most `top_k` results;
every returned result has relevance at least `min_relevance` and carries
the blended relevance of a valid search candidate. -/
theorem c6_retrieve_blend_filter_sort (st : EpisodicState)
    (results : List EpisodicMemory.SearchRes) (top_k : ℕ) (mr now : ℚ) :
    (EpisodicMemory.retrieve_relevant st results top_k mr now).2.length ≤ top_k ∧
    List.Sorted (fun a b : EpisodicMemory.RetrievedMemory => b.relevance ≤ a.relevance)
      (EpisodicMemory.retrieve_relevant st results top_k mr now).2 ∧
    (∀ x ∈ (EpisodicMemory.retrieve_relevant st results top_k mr now).2,
      mr ≤ x.relevance ∧
      ∃ r ∈ results, r.index < st.memories.length ∧
        x = EpisodicMemory.mkRetrieved now
          (EpisodicMemory.combinedRelevance st.settings now r.relevance
            (st.memories.getD r.index default))
          (st.memories.getD r.index default)) ∧
    (∀ (rel : ℚ) (m : MemoryEntry),
      EpisodicMemory.combinedRelevance defaultSettings now rel m =
        6/16 * rel + 7/16 * m.importance +
          3/16 * (1 / (1 + (now - m.unix_time) / 86400 / 30))) := by
  have hweights : ∀ (rel : ℚ) (m : MemoryEntry),
      EpisodicMemory.combinedRelevance defaultSettings now rel m =
        6/16 * rel + 7/16 * m.importance +
          3/16 * (1 / (1 + (now - m.unix_time) / 86400 / 30)) := by
    intro rel m
    norm_num [EpisodicMemory.combinedRelevance, defaultSettings]
  by_cases hemp : st.memories = []
  · have h2 : (EpisodicMemory.retrieve_relevant st results top_k mr now).2 = [] := by
      unfold EpisodicMemory.retrieve_relevant
      rw [if_pos hemp]
    rw [h2]
    exact ⟨by simp, by simp, by simp, hweights⟩
  · rw [retrieve_result_eq st results top_k mr now hemp]
    haveI hTot : IsTotal EpisodicMemory.RetrievedMemory
        (fun a b => b.relevance ≤ a.relevance) :=
      ⟨fun a b => le_total b.relevance a.relevance⟩
    haveI hTrans : IsTrans EpisodicMemory.RetrievedMemory
        (fun a b => b.relevance ≤ a.relevance) :=
      ⟨fun _ _ _ hab hbc => le_trans hbc hab⟩
    have hsorted : List.Sorted
        (fun a b : EpisodicMemory.RetrievedMemory => b.relevance ≤ a.relevance)
        ((results.filterMap
            (EpisodicMemory.hitRecord st.settings now mr st.memories)).insertionSort
          (fun a b => b.relevance ≤ a.relevance)) :=
      List.sorted_insertionSort _ _
    refine ⟨?_, ?_, ?_, hweights⟩
    · rw [List.length_take]
      exact min_le_left _ _
    · exact List.Pairwise.sublist (List.take_sublist _ _) hsorted
    · intro x hx
      have hx2 : x ∈ (results.filterMap
          (EpisodicMemory.hitRecord st.settings now mr st.memories)).insertionSort
            (fun a b => b.relevance ≤ a.relevance) :=
        List.Sublist.mem hx (List.take_sublist _ _)
      have hx3 : x ∈ results.filterMap
          (EpisodicMemory.hitRecord st.settings now mr st.memories) :=
        (List.perm_insertionSort _ _).mem_iff.mp hx2
      obtain ⟨r, hr, hrec⟩ := List.mem_filterMap.mp hx3
      obtain ⟨hlt, hrel, hxeq⟩ := hitRecord_some hrec
      exact ⟨hrel, r, hr, hlt, hxeq⟩

/-- C6 witness: the theorem applied to the one-element store `stHigh` with a
single perfectly-relevant candidate. -/
theorem c6_retrieve_blend_filter_sort_witness :
    (EpisodicMemory.retrieve_relevant stHigh
        [{ index := 0, relevance := 1 }] 3 (1/5) 0).2.length ≤ 3 :=
  (c6_retrieve_blend_filter_sort stHigh [{ index := 0, relevance := 1 }] 3 (1/5) 0).1

/-! ## C2 -/

lemma prune_memories_sublist (now : ℚ) (st : EpisodicState) :
    (EpisodicMemory.prune_memories now st).memories.Sublist st.memories := by
  simp only [EpisodicMemory.prune_memories]
  split_ifs with h
  · exact List.Sublist.refl _
  · have h2 : ((st.memories.enum.filter fun p =>
        decide (p.1 ∉ EpisodicMemory.pruneRemovedIdxs now
          st.settings.max_memories st.memories)).map Prod.snd).Sublist
        (st.memories.enum.map Prod.snd) :=
      List.Sublist.map Prod.snd (List.filter_sublist _)
    rw [List.enum_map_snd] at h2
    exact h2

lemma applyOp_importance_invariant (st : EpisodicState) (op : MemOp)
    (hst : ∀ m ∈ st.memories, 0 ≤ m.importance ∧ m.importance ≤ 1)
    (hop : opImportancesOK op) :
    ∀ m ∈ (applyOp st op).memories, 0 ≤ m.importance ∧ m.importance ≤ 1 := by
  cases op with
  | addOp t i c e ts now =>
    obtain ⟨hi0, hi1⟩ := hop
    intro m hm
    have hsub : (applyOp st (MemOp.addOp t i c e ts now)).memories.Sublist
        (st.memories ++
          [({ text := t, timestamp := ts, unix_time := now, importance := i,
              category := c, emotion := e, access_count := 0 } : MemoryEntry)]) := by
      simp only [applyOp, EpisodicMemory.add_memory]
      exact prune_memories_sublist now _
    rcases List.mem_append.mp (List.Sublist.mem hm hsub) with h | h
    · exact hst m h
    · obtain rfl := List.mem_singleton.mp h
      exact ⟨hi0, hi1⟩
  | updateOp idx i =>
    obtain ⟨hi0, hi1⟩ := hop
    intro m hm
    by_cases h : idx < st.memories.length
    · have hm2 : m ∈ modifyIdx (fun mm => { mm with importance := i }) idx st.memories := by
        simpa [applyOp, EpisodicMemory.update_importance, h] using hm
      rcases mem_modifyIdx _ idx _ hm2 with h2 | ⟨y, hy, rfl⟩
      · exact hst m h2
      · exact ⟨hi0, hi1⟩
    · have hm2 : m ∈ st.memories := by
        simpa [applyOp, EpisodicMemory.update_importance, h] using hm
      exact hst m hm2
  | retrieveOp rs k mr now =>
    intro m hm
    by_cases hemp : st.memories = []
    · have heq : (applyOp st (MemOp.retrieveOp rs k mr now)).memories = st.memories := by
        simp [applyOp, EpisodicMemory.retrieve_relevant, hemp]
      rw [heq] at hm
      exact hst m hm
    · have hm2 : m ∈ (rs.foldl (EpisodicMemory.retrieveStep st.settings now mr)
          (st.memories, [])).1 := by
        simpa [applyOp, EpisodicMemory.retrieve_relevant, hemp] using hm
      obtain ⟨hlen, hget, _⟩ := foldl_retrieveStep_spec st.settings now mr rs st.memories []
      obtain ⟨j, hj, hje⟩ := List.mem_iff_getElem.mp hm2
      have hj2 : j < st.memories.length := by rw [← hlen]; exact hj
      have hmd : m = { st.memories.getD j default with
          access_count := (st.memories.getD j default).access_count +
            rs.countP (fun r => r.index == j) } := by
        rw [← hget j hj2 default, List.getD_eq_getElem _ _ hj, hje]
      have hmem0 : st.memories.getD j default ∈ st.memories := by
        rw [List.getD_eq_getElem _ _ hj2]
        exact List.getElem_mem hj2
      have hb := hst _ hmem0
      rw [hmd]
      exact hb
  | clearOp =>
    intro m hm
    simp [applyOp, EpisodicMemory.clear] at hm

/-- C2 counterexample: `add_memory` stores its importance argument without
clamping — adding with importance 2 leaves a stored item whose importance
is 2, outside `[0, 1]`. -/
theorem c2_importance_not_clamped :
    (EpisodicMemory.add_memory emptyEpisodic "a" 2 none none "t" 0).1.memories.map
        (·.importance) = [2] ∧
    ¬ ((2 : ℚ) ≤ 1) := by
  constructor
  · norm_num [EpisodicMemory.add_memory, EpisodicMemory.mkEntry,
      EpisodicMemory.prune_memories, emptyEpisodic, defaultSettings,
      VectorIndex.update_index, VectorIndex.create_index, alookup, aset]
  · norm_num

/-- C2 (amended): neither `add_memory` nor `update_importance` clamps;
the invariant `0 ≤ importance ≤ 1` holds after any sequence of calls
exactly on the assumption that every importance argument supplied by the
callers lies in `[0, 1]` (as the documented argument range requires). -/
theorem c2_importance_range (st : EpisodicState) (ops : List MemOp)
    (hst : ∀ m ∈ st.memories, 0 ≤ m.importance ∧ m.importance ≤ 1)
    (hops : ∀ op ∈ ops, opImportancesOK op) :
    ∀ m ∈ (runOps st ops).memories, 0 ≤ m.importance ∧ m.importance ≤ 1 := by
  induction ops generalizing st with
  | nil => exact hst
  | cons op ops ih =>
    have h1 : ∀ m ∈ (applyOp st op).memories, 0 ≤ m.importance ∧ m.importance ≤ 1 :=
      applyOp_importance_invariant st op hst (hops op (List.mem_cons_self op ops))
    have h2 : ∀ o ∈ ops, opImportancesOK o :=
      fun o ho => hops o (List.mem_cons_of_mem op ho)
    exact ih (applyOp st op) h1 h2

/-- C2 witness: the amended theorem applied to the empty store and a single
`add` call with in-range importance `1/2`. -/
theorem c2_importance_range_witness :
    (∀ m ∈ emptyEpisodic.memories, 0 ≤ m.importance ∧ m.importance ≤ 1) ∧
    (∀ op ∈ [MemOp.addOp "a" (1/2) none none "t" 0], opImportancesOK op) ∧
    (∀ m ∈ (runOps emptyEpisodic [MemOp.addOp "a" (1/2) none none "t" 0]).memories,
      0 ≤ m.importance ∧ m.importance ≤ 1) :=
  ⟨by simp [emptyEpisodic],
    by norm_num [opImportancesOK],
    c2_importance_range emptyEpisodic [MemOp.addOp "a" (1/2) none none "t" 0]
      (by simp [emptyEpisodic]) (by norm_num [opImportancesOK])⟩

/-! ## C5 -/

/-- C5 counterexample: the id returned by `add_memory` is just the list
index, and ids of destroyed items are reused — adding `"a"` to the empty
store returns id 0, and after `clear` a subsequent add of `"c"` returns
id 0 again, now denoting a different item. -/
theorem c5_id_reused_after_clear :
    (EpisodicMemory.add_memory emptyEpisodic "a" (1/2) none none "t" 0).2 = 0 ∧
    ((EpisodicMemory.add_memory emptyEpisodic "a" (1/2) none none "t" 0).1.memories.getD
        0 default).text = "a" ∧
    (EpisodicMemory.add_memory
        (EpisodicMemory.clear
          (EpisodicMemory.add_memory emptyEpisodic "a" (1/2) none none "t" 0).1).1
        "c" (1/2) none none "u" 1).2 = 0 ∧
    ((EpisodicMemory.add_memory
        (EpisodicMemory.clear
          (EpisodicMemory.add_memory emptyEpisodic "a" (1/2) none none "t" 0).1).1
        "c" (1/2) none none "u" 1).1.memories.getD 0 default).text = "c" ∧
    ("a" : String) ≠ "c" := by
  refine ⟨?_, ?_, ?_, ?_, by decide⟩ <;>
    norm_num [EpisodicMemory.add_memory, EpisodicMemory.mkEntry,
      EpisodicMemory.prune_memories, EpisodicMemory.clear, emptyEpisodic,
      defaultSettings, VectorIndex.update_index, VectorIndex.create_index,
      VectorIndex.rebuild_index, alookup, aset, aerase]

/-- C5 (amended): the id returned by `add_memory` is the index of the item
in the memory list; as long as `max_memories` is not exceeded (so no prune
fires) and no `clear` is performed, ids are stable — an add returns the old
length as the new id, existing ids keep denoting exactly the same items,
and the new id denotes the new entry. After a prune or clear, indices shift
and ids are reused (see the counterexample). -/
theorem c5_id_stability (st : EpisodicState) (t : String) (imp : ℚ)
    (cat emo : Option String) (ts : String) (now : ℚ)
    (h : st.memories.length < st.settings.max_memories) :
    (EpisodicMemory.add_memory st t imp cat emo ts now).2 = st.memories.length ∧
    (EpisodicMemory.add_memory st t imp cat emo ts now).1.memories.length =
      st.memories.length + 1 ∧
    (∀ i, i < st.memories.length →
      (EpisodicMemory.add_memory st t imp cat emo ts now).1.memories.getD i default =
        st.memories.getD i default) ∧
    (EpisodicMemory.add_memory st t imp cat emo ts now).1.memories.getD
        st.memories.length default =
      { text := t, timestamp := ts, unix_time := now, importance := imp,
        category := cat, emotion := emo, access_count := 0 } := by
  have hcond : (st.memories ++
      [EpisodicMemory.mkEntry t imp cat emo ts now]).length ≤
      st.settings.max_memories := by
    simp only [List.length_append, List.length_cons, List.length_nil]
    omega
  simp only [EpisodicMemory.add_memory, EpisodicMemory.prune_memories]
  rw [if_pos hcond]
  refine ⟨?_, ?_, ?_, ?_⟩
  · simp
  · simp
  · intro i hi
    exact List.getD_append _ _ _ _ hi
  · rw [List.getD_eq_getElem _ _ (by simp)]
    exact List.getElem_concat_length _ _ _ rfl _

/-- C5 witness: the amended theorem applied to the empty store (whose
length 0 is below the default `max_memories = 100`). -/
theorem c5_id_stability_witness :
    emptyEpisodic.memories.length < emptyEpisodic.settings.max_memories ∧
    ((EpisodicMemory.add_memory emptyEpisodic "a" (1/2) none none "t" 0).2 =
        emptyEpisodic.memories.length ∧
      (EpisodicMemory.add_memory emptyEpisodic "a" (1/2) none none "t" 0).1.memories.length =
        emptyEpisodic.memories.length + 1 ∧
      (∀ i, i < emptyEpisodic.memories.length →
        (EpisodicMemory.add_memory emptyEpisodic "a" (1/2) none none "t"
            0).1.memories.getD i default =
          emptyEpisodic.memories.getD i default) ∧
      (EpisodicMemory.add_memory emptyEpisodic "a" (1/2) none none "t"
          0).1.memories.getD emptyEpisodic.memories.length default =
        { text := "a", timestamp := "t", unix_time := 0, importance := 1/2,
          category := none, emotion := none, access_count := 0 }) :=
  ⟨by simp [emptyEpisodic, defaultSettings],
    c5_id_stability emptyEpisodic "a" (1/2) none none "t" 0
      (by simp [emptyEpisodic, defaultSettings])⟩

/-! ## C3 -/

lemma pruneScored_length (now : ℚ) (ms : List MemoryEntry) :
    (EpisodicMemory.pruneScored now ms).length = ms.length := by
  simp [EpisodicMemory.pruneScored]

lemma pruneScored_map_fst (now : ℚ) (ms : List MemoryEntry) :
    (EpisodicMemory.pruneScored now ms).map Prod.fst = List.range ms.length := by
  unfold EpisodicMemory.pruneScored
  rw [List.map_map]
  have hf : (Prod.fst ∘ fun p : ℕ × MemoryEntry =>
      (p.1, EpisodicMemory.retentionScore now p.2)) = Prod.fst := funext (fun _ => rfl)
  rw [hf, List.enum_map_fst]

lemma mem_pruneScored {now : ℚ} {ms : List MemoryEntry} {p : ℕ × ℚ}
    (hp : p ∈ EpisodicMemory.pruneScored now ms) :
    p.1 < ms.length ∧
    p.2 = EpisodicMemory.retentionScore now (ms.getD p.1 default) := by
  obtain ⟨q, hq, hqp⟩ := List.mem_map.mp hp
  have hq2 := List.mem_enum_iff_getElem?.mp hq
  have hlt : q.1 < ms.length := by
    by_contra hge
    rw [List.getElem?_eq_none (by omega)] at hq2
    exact Option.noConfusion hq2
  have hval : ms[q.1] = q.2 := by
    rw [List.getElem?_eq_getElem hlt] at hq2
    exact Option.some.inj hq2
  subst hqp
  refine ⟨hlt, ?_⟩
  rw [List.getD_eq_getElem _ _ hlt, hval]

lemma pair_mem_pruneScored (now : ℚ) (ms : List MemoryEntry) (j : ℕ)
    (hj : j < ms.length) :
    (j, EpisodicMemory.retentionScore now (ms.getD j default)) ∈
      EpisodicMemory.pruneScored now ms := by
  apply List.mem_map.mpr
  refine ⟨(j, ms.getD j default), ?_, rfl⟩
  apply List.mem_enum_iff_getElem?.mpr
  rw [List.getD_eq_getElem _ _ hj]
  exact List.getElem?_eq_getElem hj

lemma pruneRemovedIdxs_spec (now : ℚ) (maxm : ℕ) (ms : List MemoryEntry) :
    (EpisodicMemory.pruneRemovedIdxs now maxm ms).Nodup ∧
    (∀ i ∈ EpisodicMemory.pruneRemovedIdxs now maxm ms, i < ms.length) ∧
    (EpisodicMemory.pruneRemovedIdxs now maxm ms).length =
      min (ms.length - maxm) ms.length := by
  unfold EpisodicMemory.pruneRemovedIdxs
  have hperm : (((EpisodicMemory.pruneScored now ms).insertionSort
      fun a b => a.2 ≤ b.2).map Prod.fst).Perm (List.range ms.length) := by
    have h1 := List.Perm.map Prod.fst
      (List.perm_insertionSort (fun a b : ℕ × ℚ => a.2 ≤ b.2)
        (EpisodicMemory.pruneScored now ms))
    rw [pruneScored_map_fst] at h1
    exact h1
  have hnodup : (((EpisodicMemory.pruneScored now ms).insertionSort
      fun a b => a.2 ≤ b.2).map Prod.fst).Nodup :=
    hperm.symm.nodup (List.nodup_range _)
  rw [List.map_take]
  refine ⟨?_, ?_, ?_⟩
  · exact List.Nodup.sublist (List.take_sublist _ _) hnodup
  · intro i hi
    have hi2 : i ∈ ((EpisodicMemory.pruneScored now ms).insertionSort
        fun a b => a.2 ≤ b.2).map Prod.fst :=
      List.Sublist.mem hi (List.take_sublist _ _)
    have := hperm.mem_iff.mp hi2
    exact List.mem_range.mp this
  · rw [List.length_take, List.length_map]
    have hlen : ((EpisodicMemory.pruneScored now ms).insertionSort
        fun a b => a.2 ≤ b.2).length = ms.length := by
      rw [(List.perm_insertionSort _ _).length_eq, pruneScored_length]
    rw [hlen]

lemma countP_mem_range_eq_length {R : List ℕ} {n : ℕ} (hnd : R.Nodup)
    (hsub : ∀ i ∈ R, i < n) :
    (List.range n).countP (fun i => decide (i ∈ R)) = R.length := by
  rw [List.countP_eq_length_filter]
  have hperm : ((List.range n).filter (fun i => decide (i ∈ R))).Perm R := by
    apply (List.perm_ext_iff_of_nodup ((List.nodup_range n).filter _) hnd).mpr
    intro a
    simp only [List.mem_filter, List.mem_range, decide_eq_true_eq]
    constructor
    · rintro ⟨_, h2⟩
      exact h2
    · intro h2
      exact ⟨hsub a h2, h2⟩
  exact hperm.length_eq

lemma length_filter_fst_not_mem {α : Type} (xs : List α) (R : List ℕ) (hnd : R.Nodup)
    (hsub : ∀ i ∈ R, i < xs.length) :
    ((xs.enum.filter fun p => decide (p.1 ∉ R)).map Prod.snd).length =
      xs.length - R.length := by
  rw [List.length_map, ← List.countP_eq_length_filter]
  have hcomp : (fun p : ℕ × α => decide (p.1 ∉ R)) =
      ((fun i => decide (i ∉ R)) ∘ Prod.fst) := rfl
  rw [hcomp, ← List.countP_map, List.enum_map_fst]
  have h3 := List.length_eq_countP_add_countP (fun i => decide (i ∈ R))
    (List.range xs.length)
  have h4 : (List.range xs.length).countP (fun i => decide (i ∈ R)) = R.length :=
    countP_mem_range_eq_length hnd hsub
  have h5 : (List.range xs.length).countP
      (fun a => decide ¬((fun i => decide (i ∈ R)) a = true)) =
      (List.range xs.length).countP (fun i => decide (i ∉ R)) := by
    apply List.countP_congr
    intro x _
    simp
  rw [h5, h4, List.length_range] at h3
  omega

lemma prune_length (now : ℚ) (st : EpisodicState)
    (h : st.settings.max_memories < st.memories.length) :
    (EpisodicMemory.prune_memories now st).memories.length =
      st.settings.max_memories := by
  simp only [EpisodicMemory.prune_memories]
  rw [if_neg (by omega)]
  obtain ⟨hnd, hsub, hlen⟩ :=
    pruneRemovedIdxs_spec now st.settings.max_memories st.memories
  have := length_filter_fst_not_mem st.memories
    (EpisodicMemory.pruneRemovedIdxs now st.settings.max_memories st.memories) hnd hsub
  rw [this, hlen]
  omega

lemma prune_scores_le (now : ℚ) (maxm : ℕ) (ms : List MemoryEntry)
    (i : ℕ) (hi : i ∈ EpisodicMemory.pruneRemovedIdxs now maxm ms)
    (j : ℕ) (hj : j < ms.length)
    (hjn : j ∉ EpisodicMemory.pruneRemovedIdxs now maxm ms) :
    EpisodicMemory.retentionScore now (ms.getD i default) ≤
      EpisodicMemory.retentionScore now (ms.getD j default) := by
  haveI hTot : IsTotal (ℕ × ℚ) (fun a b => a.2 ≤ b.2) := ⟨fun a b => le_total a.2 b.2⟩
  haveI hTrans : IsTrans (ℕ × ℚ) (fun a b => a.2 ≤ b.2) :=
    ⟨fun _ _ _ hab hbc => le_trans hab hbc⟩
  unfold EpisodicMemory.pruneRemovedIdxs at hi hjn
  obtain ⟨a, ha, hai⟩ := List.mem_map.mp hi
  have hasorted : a ∈ (EpisodicMemory.pruneScored now ms).insertionSort
      (fun a b => a.2 ≤ b.2) := List.Sublist.mem ha (List.take_sublist _ _)
  have hascored : a ∈ EpisodicMemory.pruneScored now ms :=
    (List.perm_insertionSort _ _).mem_iff.mp hasorted
  obtain ⟨ha1, ha2⟩ := mem_pruneScored hascored
  have hjsorted : (j, EpisodicMemory.retentionScore now (ms.getD j default)) ∈
      (EpisodicMemory.pruneScored now ms).insertionSort (fun a b => a.2 ≤ b.2) :=
    (List.perm_insertionSort _ _).mem_iff.mpr (pair_mem_pruneScored now ms j hj)
  have hjdrop : (j, EpisodicMemory.retentionScore now (ms.getD j default)) ∈
      ((EpisodicMemory.pruneScored now ms).insertionSort
        (fun a b => a.2 ≤ b.2)).drop (ms.length - maxm) := by
    have hsplit : (j, EpisodicMemory.retentionScore now (ms.getD j default)) ∈
        ((EpisodicMemory.pruneScored now ms).insertionSort
          (fun a b => a.2 ≤ b.2)).take (ms.length - maxm) ++
        ((EpisodicMemory.pruneScored now ms).insertionSort
          (fun a b => a.2 ≤ b.2)).drop (ms.length - maxm) := by
      rw [List.take_append_drop]
      exact hjsorted
    rcases List.mem_append.mp hsplit with hcase | hcase
    · exact absurd (List.mem_map.mpr ⟨_, hcase, rfl⟩) hjn
    · exact hcase
  have hsorted2 : List.Pairwise (fun a b : ℕ × ℚ => a.2 ≤ b.2)
      (((EpisodicMemory.pruneScored now ms).insertionSort
        (fun a b => a.2 ≤ b.2)).take (ms.length - maxm) ++
       ((EpisodicMemory.pruneScored now ms).insertionSort
        (fun a b => a.2 ≤ b.2)).drop (ms.length - maxm)) := by
    rw [List.take_append_drop]
    exact List.sorted_insertionSort _ _
  have hle := (List.pairwise_append.mp hsorted2).2.2 a ha _ hjdrop
  rw [← hai, ← ha2]
  exact hle

/-- C3: after any `add_memory` call the item count is at most
`max_memories` (it equals `min(old count + 1, max_memories)`); when the
add exceeds `max_memories`, pruning removes exactly `count - max_memories`
items, the survivors are a sublist of the appended list (original relative
order), and every removed index has retention score — the code formula
`0.7*importance + 0.2*(1/(1+age/30)) + 0.1*min(1, access_count/(1+age))` —
at most that of every surviving index. -/
theorem c3_prune_invariant (st : EpisodicState) (t : String) (imp : ℚ)
    (cat emo : Option String) (ts : String) (now : ℚ) :
    (EpisodicMemory.add_memory st t imp cat emo ts now).1.memories.length =
      min (st.memories.length + 1) st.settings.max_memories ∧
    (EpisodicMemory.add_memory st t imp cat emo ts now).1.memories.length ≤
      st.settings.max_memories ∧
    (EpisodicMemory.add_memory st t imp cat emo ts now).1.memories.Sublist
      (st.memories ++ [EpisodicMemory.mkEntry t imp cat emo ts now]) ∧
    (st.settings.max_memories < st.memories.length + 1 →
      ∀ i ∈ EpisodicMemory.pruneRemovedIdxs now st.settings.max_memories
          (st.memories ++ [EpisodicMemory.mkEntry t imp cat emo ts now]),
        ∀ j, j < st.memories.length + 1 →
          j ∉ EpisodicMemory.pruneRemovedIdxs now st.settings.max_memories
              (st.memories ++ [EpisodicMemory.mkEntry t imp cat emo ts now]) →
          EpisodicMemory.retentionScore now
              ((st.memories ++ [EpisodicMemory.mkEntry t imp cat emo ts now]).getD i
                default) ≤
            EpisodicMemory.retentionScore now
              ((st.memories ++ [EpisodicMemory.mkEntry t imp cat emo ts now]).getD j
                default)) := by
  have hadd : (EpisodicMemory.add_memory st t imp cat emo ts now).1 =
      EpisodicMemory.prune_memories now
        { st with
          memories := st.memories ++ [EpisodicMemory.mkEntry t imp cat emo ts now]
          vector_index := VectorIndex.update_index st.vector_index "episodic" [t] } := rfl
  have hAlen : (st.memories ++ [EpisodicMemory.mkEntry t imp cat emo ts now]).length =
      st.memories.length + 1 := by simp
  rw [hadd]
  by_cases hc : st.memories.length + 1 ≤ st.settings.max_memories
  · have hpr : EpisodicMemory.prune_memories now
        { st with
          memories := st.memories ++ [EpisodicMemory.mkEntry t imp cat emo ts now]
          vector_index := VectorIndex.update_index st.vector_index "episodic" [t] } =
        { st with
          memories := st.memories ++ [EpisodicMemory.mkEntry t imp cat emo ts now]
          vector_index := VectorIndex.update_index st.vector_index "episodic" [t] } := by
      simp only [EpisodicMemory.prune_memories]
      rw [if_pos (by rw [hAlen]; exact hc)]
    rw [hpr]
    refine ⟨?_, ?_, ?_, ?_⟩
    · rw [hAlen]
      exact (Nat.min_eq_left hc).symm
    · rw [hAlen]
      exact hc
    · exact List.Sublist.refl _
    · intro hcontra
      exact absurd hcontra (by omega)
  · have hmax : st.settings.max_memories <
        (st.memories ++ [EpisodicMemory.mkEntry t imp cat emo ts now]).length := by
      rw [hAlen]; omega
    have hlen : (EpisodicMemory.prune_memories now
        { st with
          memories := st.memories ++ [EpisodicMemory.mkEntry t imp cat emo ts now]
          vector_index :=
            VectorIndex.update_index st.vector_index "episodic" [t] }).memories.length =
        st.settings.max_memories :=
      prune_length now _ hmax
    refine ⟨?_, ?_, ?_, ?_⟩
    · rw [hlen]
      exact (Nat.min_eq_right (by omega)).symm
    · rw [hlen]
    · exact prune_memories_sublist now _
    · intro _ i hi j hj hjn
      exact prune_scores_le now st.settings.max_memories
        (st.memories ++ [EpisodicMemory.mkEntry t imp cat emo ts now]) i hi j
        (by rw [hAlen]; exact hj) hjn

/-- C3 witness: the theorem applied to `stPrune` (one item, limit 1), where
the add makes the count 2 and pruning fires. -/
theorem c3_prune_invariant_witness :
    (EpisodicMemory.add_memory stPrune "b" (1/2) none none "u" 0).1.memories.length =
      min (stPrune.memories.length + 1) stPrune.settings.max_memories ∧
    (EpisodicMemory.add_memory stPrune "b" (1/2) none none "u" 0).1.memories.length ≤
      stPrune.settings.max_memories ∧
    (EpisodicMemory.add_memory stPrune "b" (1/2) none none "u" 0).1.memories.Sublist
      (stPrune.memories ++ [EpisodicMemory.mkEntry "b" (1/2) none none "u" 0]) ∧
    (stPrune.settings.max_memories < stPrune.memories.length + 1 →
      ∀ i ∈ EpisodicMemory.pruneRemovedIdxs 0 stPrune.settings.max_memories
          (stPrune.memories ++ [EpisodicMemory.mkEntry "b" (1/2) none none "u" 0]),
        ∀ j, j < stPrune.memories.length + 1 →
          j ∉ EpisodicMemory.pruneRemovedIdxs 0 stPrune.settings.max_memories
              (stPrune.memories ++ [EpisodicMemory.mkEntry "b" (1/2) none none "u" 0]) →
          EpisodicMemory.retentionScore 0
              ((stPrune.memories ++
                [EpisodicMemory.mkEntry "b" (1/2) none none "u" 0]).getD i default) ≤
            EpisodicMemory.retentionScore 0
              ((stPrune.memories ++
                [EpisodicMemory.mkEntry "b" (1/2) none none "u" 0]).getD j default)) :=
  c3_prune_invariant stPrune "b" (1/2) none none "u" 0

end Amadeus
